import Mathlib

/-!
Verification of the Zanobot translation-consistency checker.

The repository holds two Python scripts:

* `check-translations-detailed.py` ("exhaustive mode"): reports every missing
  key per language and exits 0 iff the total number of missing keys over all
  non-reference languages is zero.
* `check-translations.py` ("strict mode"): reports missing and extra keys
  (truncated to 20 each) and exits 0 iff no non-reference language has any
  missing or extra key.

Both share a line-oriented, brace-counting key extractor.  The definitions
below are a shallow embedding of that code: file contents are `List Char`,
keys (dotted paths) are `List Char`, key sets are `Finset (List Char)`.
Python's `\w` character class and whitespace are modelled over their ASCII
fragments (`Char.isAlphanum` plus underscore, resp. the six ASCII whitespace
characters), which is what the translation files use.
-/

/-- ASCII fragment of Python whitespace (used by `str.strip` and `\s`). -/
def isPySpace (c : Char) : Bool :=
  c = ' ' || c = '\t' || c = '\n' || c = '\r' || c = '\x0b' || c = '\x0c'

/-- ASCII fragment of Python's `\w` word-character class. -/
def isWordChar (c : Char) : Bool :=
  c.isAlphanum || c = '_'

/-- Python `str.strip()`: drop leading and trailing whitespace. -/
def pyStrip (l : List Char) : List Char :=
  ((l.dropWhile isPySpace).reverse.dropWhile isPySpace).reverse

/-- Python `str.split('\n')`: split on every newline; the result is never
empty and empty pieces are kept. -/
def splitOnNl : List Char → List (List Char)
  | [] => [[]]
  | c :: rest =>
    if c = '\n' then [] :: splitOnNl rest
    else
      match splitOnNl rest with
      | [] => [[c]]
      | line :: ls => (c :: line) :: ls

/-- Match a literal prefix, returning the remainder on success. -/
def stripPrefixL : List Char → List Char → Option (List Char)
  | [], l => some l
  | _ :: _, [] => none
  | p :: ps, c :: cs => if p = c then stripPrefixL ps cs else none

/-- The per-line key regex `^\s*(\w+):\s*(.*)$` of both scripts: skip leading
whitespace, take a maximal nonempty word-character run, require a colon, and
return the key name together with the stripped value part
(`key_match.group(2).strip()`). -/
def keyMatch (line : List Char) : Option (List Char × List Char) :=
  let r := line.dropWhile isPySpace
  let w := r.takeWhile isWordChar
  match w, r.drop w.length with
  | [], _ => none
  | _ :: _, ':' :: rest => some (w, pyStrip rest)
  | _ :: _, _ => none

/-- `'.'.join(current_path + [key_name])`. -/
def joinDot (path : List (List Char)) : List Char :=
  List.intercalate ['.'] path

/-- Pop the last path segment `n` times, skipping the pop when the path is
already empty (`if current_path: current_path.pop()`). -/
def popN (path : List (List Char)) : Nat → List (List Char)
  | 0 => path
  | n + 1 => (popN path n).dropLast

/-- One loop iteration of `extract_nested_keys` in
`check-translations-detailed.py` (lines 28-57): skip blank and `//` lines,
match the key regex, push object-valued keys onto the path or record leaf
keys, then pop the path once per close brace on the line. -/
def stepLine (st : List (List Char) × Finset (List Char)) (line : List Char) :
    List (List Char) × Finset (List Char) :=
  let stripped := pyStrip line
  if stripped.isEmpty || List.isPrefixOf "//".toList stripped then st
  else
    let closeBraces := List.count '\x7d' line
    let st1 :=
      match keyMatch line with
      | some (k, v) =>
        let fullKey := joinDot (st.1 ++ [k])
        if v.head? = some '\x7b' then (st.1 ++ [k], st.2)
        else (st.1, insert fullKey st.2)
      | none => st
    (popN st1.1 closeBraces, st1.2)

/-- `extract_nested_keys` of `check-translations-detailed.py`: fold
`stepLine` over the lines starting from an empty path and empty key set. -/
def extract_nested_keys (text : List Char) : Finset (List Char) :=
  ((splitOnNl text).foldl stepLine ([], ∅)).2

/-- Rightmost occurrence of the two-character sequence close-brace,
semicolon: returns `(a, b)` with the input equal to
`a ++ [close-brace, semicolon] ++ b` at the last such occurrence.  This is
where the greedy `.*` of the declaration regex stops backtracking. -/
def lastCloseSemi : List Char → Option (List Char × List Char)
  | [] => none
  | c :: rest =>
    match lastCloseSemi rest with
    | some (a, b) => some (c :: a, b)
    | none =>
      if c = '\x7d' then
        match rest with
        | ';' :: b => some ([], b)
        | _ => none
      else none

/-- Attempt to match the declaration regex
`export const \w+: TranslationDict = ({.*});` (with `re.DOTALL`) anchored at
the start of `l`, returning capture group 1. -/
def declAt (l : List Char) : Option (List Char) :=
  match stripPrefixL "export const ".toList l with
  | none => none
  | some r =>
    let w := r.takeWhile isWordChar
    if w.isEmpty then none
    else
      match stripPrefixL ": TranslationDict = ".toList (r.drop w.length) with
      | none => none
      | some r2 =>
        match r2 with
        | '\x7b' :: r3 =>
          match lastCloseSemi r3 with
          | some (m, _) => some ('\x7b' :: m ++ ['\x7d'])
          | none => none
        | _ => none

/-- `re.search` of the declaration regex: try every start position from the
left and return the first successful match's capture group. -/
def findDecl : List Char → Option (List Char)
  | [] => none
  | c :: rest =>
    match declAt (c :: rest) with
    | some g => some g
    | none => findDecl rest

/-- `extract_keys_from_ts` of `check-translations-detailed.py` applied to a
file's content: search for the dictionary-literal declaration, return the
empty set if absent, otherwise extract nested keys from the literal. -/
def extract_keys_from_ts (content : List Char) : Finset (List Char) :=
  match findDecl content with
  | none => ∅
  | some obj => extract_nested_keys obj

/-- One loop iteration of `extract_nested_keys` in `check-translations.py`
(lines 38-68).  Identical to `stepLine` except for the dead
`open_braces = line.count('{')` binding, kept here verbatim. -/
def stepLineStrict (st : List (List Char) × Finset (List Char)) (line : List Char) :
    List (List Char) × Finset (List Char) :=
  let stripped := pyStrip line
  if stripped.isEmpty || List.isPrefixOf "//".toList stripped then st
  else
    let openBraces := List.count '\x7b' line
    let closeBraces := List.count '\x7d' line
    let st1 :=
      match keyMatch line with
      | some (k, v) =>
        let fullKey := joinDot (st.1 ++ [k])
        if v.head? = some '\x7b' then (st.1 ++ [k], st.2)
        else (st.1, insert fullKey st.2)
      | none => st
    (popN st1.1 closeBraces, st1.2)

/-- `extract_nested_keys` of `check-translations.py`, including its dead
`stack = []` binding. -/
def extract_nested_keys_strict (text : List Char) : Finset (List Char) :=
  let stack : List (List Char) := []
  ((splitOnNl text).foldl stepLineStrict ([], ∅)).2

/-- `extract_keys_from_ts` of `check-translations.py`; its declaration regex
is character-for-character the one of the detailed script (the compiled
`key_pattern` regex of that file is never used). -/
def extract_keys_from_ts_strict (content : List Char) : Finset (List Char) :=
  match findDecl content with
  | none => ∅
  | some obj => extract_nested_keys_strict obj

/-- The content of the spec's scenario-1 example, exactly its five lines. -/
def scenario1Snippet : List Char :=
  "greeting: \x27hi\x27\nmenu: \x7b\n  file: \x27File\x27\n  edit: \x27Edit\x27\n\x7d".toList

/-- The scenario-1 snippet wrapped in the dictionary-literal declaration the
extractor searches for. -/
def scenario1Wrapped : List Char :=
  ("export const en: TranslationDict = \x7b\ngreeting: \x27hi\x27\nmenu: \x7b\n  file: \x27File\x27\n  edit: \x27Edit\x27\n\x7d\n\x7d;").toList

/-- Python's string comparison, used by `sorted(...)`: lexicographic order on
the code points, i.e. the linear order on `List Char`. -/
def keyLe (a b : List Char) : Prop := a ≤ b

instance : DecidableRel keyLe := fun a b => inferInstanceAs (Decidable (a ≤ b))

instance : IsTotal (List Char) keyLe := inferInstanceAs (IsTotal (List Char) (fun a b => a ≤ b))

instance : IsTrans (List Char) keyLe := inferInstanceAs (IsTrans (List Char) (fun a b => a ≤ b))

instance : IsAntisymm (List Char) keyLe := inferInstanceAs (IsAntisymm (List Char) (fun a b => a ≤ b))

/-- Python `sorted(...)` applied to a key set: the unique `keyLe`-sorted
enumeration of the set, computed by insertion sort on any underlying list. -/
def sortKeys (s : Finset (List Char)) : List (List Char) :=
  Quot.liftOn s.val (fun l => List.insertionSort keyLe l)
    (fun l₁ l₂ h =>
      List.eq_of_perm_of_sorted
        (((List.perm_insertionSort keyLe l₁).trans h).trans
          (List.perm_insertionSort keyLe l₂).symm)
        (List.sorted_insertionSort keyLe l₁)
        (List.sorted_insertionSort keyLe l₂))

/-- The fixed language table of both scripts (code, display name); English is
the reference. -/
def languages : List (String × String) :=
  [("en", "English"), ("de", "German"), ("es", "Spanish"), ("fr", "French"), ("zh", "Chinese")]

/-- The four non-reference language codes. -/
def nonRefCodes : List String := ["de", "es", "fr", "zh"]

/-- `len(reference_keys - all_keys[code])` for one language. -/
def missingCount (allKeys : String → Finset (List Char)) (code : String) : Nat :=
  ((allKeys "en") \ allKeys code).card

/-- The `total_missing` accumulation loop of `check-translations-detailed.py`
(lines 122-127): fold over the language table, skipping the reference. -/
def totalMissingKeys (allKeys : String → Finset (List Char)) : Nat :=
  languages.foldl
    (fun acc p => if p.1 = "en" then acc else acc + ((allKeys "en") \ allKeys p.1).card) 0

/-- The tail of `main` in `check-translations-detailed.py` (lines 132-137):
whether the all-consistent success message is printed, and the return value. -/
def detailedOutcome (allKeys : String → Finset (List Char)) : Bool × Nat :=
  if totalMissingKeys allKeys = 0 then (true, 0) else (false, 1)

/-- Exit status of the exhaustive-mode script for a given key-set mapping. -/
def detailedExitCode (allKeys : String → Finset (List Char)) : Nat :=
  (detailedOutcome allKeys).2

/-- The `has_issues` flag of `check-translations.py` (lines 109-142): set as
soon as some non-reference language has a nonempty missing or extra set. -/
def strictHasIssues (allKeys : String → Finset (List Char)) : Bool :=
  languages.foldl
    (fun acc p =>
      if p.1 = "en" then acc
      else
        if (allKeys "en") \ allKeys p.1 = ∅ ∧ allKeys p.1 \ allKeys "en" = ∅ then acc
        else true)
    false

/-- Exit status of the strict-mode script (lines 146-152). -/
def strictExitCode (allKeys : String → Finset (List Char)) : Nat :=
  if strictHasIssues allKeys then 1 else 0

/-- The `all_keys` mapping both scripts build: extract from the file when it
exists, otherwise use the empty set. -/
def buildAllKeys (files : String → Option (List Char)) : String → Finset (List Char) :=
  fun code =>
    match files code with
    | some content => extract_keys_from_ts content
    | none => ∅

/-- `main` of `check-translations-detailed.py` as a function of the file
contents: success-message flag and exit status. -/
def detailedMain (files : String → Option (List Char)) : Bool × Nat :=
  detailedOutcome (buildAllKeys files)

/-- The diff primitive of `check-translations.py` (lines 117-118):
`(missing, extra)` of a language's key set against the reference. -/
def diffKeys (referenceKeys langKeys : Finset (List Char)) :
    Finset (List Char) × Finset (List Char) :=
  (referenceKeys \ langKeys, langKeys \ referenceKeys)

/-- The exhaustive-mode per-language listing (lines 103, 110-111):
`enumerate(sorted(reference_keys - lang_keys), 1)`. -/
def detailedMissingListing (ref lang : Finset (List Char)) : List (Nat × List Char) :=
  List.enumFrom 1 (sortKeys (ref \ lang))

/-- The strict-mode missing-key listing (line 128): `sorted(missing)[:20]`. -/
def strictShownMissing (ref lang : Finset (List Char)) : List (List Char) :=
  (sortKeys (ref \ lang)).take 20

/-- The strict-mode extra-key listing (line 135): `sorted(extra)[:20]`. -/
def strictShownExtra (ref lang : Finset (List Char)) : List (List Char) :=
  (sortKeys (lang \ ref)).take 20

/-- Whether the strict script's loop body flags language `p` (proof helper). -/
def issueFlag (allKeys : String → Finset (List Char)) (p : String × String) : Bool :=
  if p.1 = "en" then false
  else
    if (allKeys "en") \ allKeys p.1 = ∅ ∧ allKeys p.1 \ allKeys "en" = ∅ then false
    else true

/-- Sample reference key set with 21 keys (for exercising the 20-item
truncation). -/
def sampleRef : Finset (List Char) :=
  {"m01".toList, "m02".toList, "m03".toList, "m04".toList, "m05".toList, "m06".toList, "m07".toList, "m08".toList, "m09".toList, "m10".toList, "m11".toList, "m12".toList, "m13".toList, "m14".toList, "m15".toList, "m16".toList, "m17".toList, "m18".toList, "m19".toList, "m20".toList, "m21".toList}

/-- Sample language key set with 21 keys disjoint from `sampleRef`. -/
def sampleLang : Finset (List Char) :=
  {"x01".toList, "x02".toList, "x03".toList, "x04".toList, "x05".toList, "x06".toList, "x07".toList, "x08".toList, "x09".toList, "x10".toList, "x11".toList, "x12".toList, "x13".toList, "x14".toList, "x15".toList, "x16".toList, "x17".toList, "x18".toList, "x19".toList, "x20".toList, "x21".toList}

lemma sortKeys_sorted (s : Finset (List Char)) : List.Sorted keyLe (sortKeys s) := by
  rcases s with ⟨m, hm⟩
  induction m using Quot.inductionOn with
  | h l => exact List.sorted_insertionSort keyLe l

lemma sortKeys_perm (s : Finset (List Char)) :
    ∀ l : List (List Char), s.val = (l : Multiset (List Char)) → (sortKeys s).Perm l := by
  rcases s with ⟨m, hm⟩
  induction m using Quot.inductionOn with
  | h l0 =>
    intro l hl
    have hp : l0.Perm l := Quotient.exact hl
    exact (List.perm_insertionSort keyLe l0).trans hp

lemma mem_sortKeys {a : List Char} {s : Finset (List Char)} : a ∈ sortKeys s ↔ a ∈ s := by
  rcases s with ⟨m, hm⟩
  induction m using Quot.inductionOn with
  | h l =>
    show a ∈ List.insertionSort keyLe l ↔ _
    rw [(List.perm_insertionSort keyLe l).mem_iff]
    exact Iff.rfl

lemma sortKeys_nodup (s : Finset (List Char)) : (sortKeys s).Nodup := by
  rcases s with ⟨m, hm⟩
  induction m using Quot.inductionOn with
  | h l => exact ((List.perm_insertionSort keyLe l).nodup_iff).mpr hm

lemma length_sortKeys (s : Finset (List Char)) : (sortKeys s).length = s.card := by
  rcases s with ⟨m, hm⟩
  induction m using Quot.inductionOn with
  | h l => exact (List.perm_insertionSort keyLe l).length_eq

lemma sortKeys_sorted_lt (s : Finset (List Char)) :
    List.Sorted (fun a b : List Char => a < b) (sortKeys s) := by
  have h1 := sortKeys_sorted s
  have h2 := sortKeys_nodup s
  exact ((List.Pairwise.and h1 h2).imp (fun h => lt_of_le_of_ne h.1 h.2))

lemma take_lt_of_sorted_lt (l : List (List Char)) (n : Nat)
    (hs : List.Sorted (fun a b : List Char => a < b) l)
    (a b : List Char) (ha : a ∈ l.take n) (hb : b ∈ l) (hnb : b ∉ l.take n) : a < b := by
  rw [← List.take_append_drop n l] at hs hb
  rcases List.mem_append.mp hb with h | h
  · exact absurd h hnb
  · exact (List.pairwise_append.mp hs).2.2 a ha b h

lemma foldl_or_eq {α : Type} (f : α → Bool) (L : List α) :
    ∀ b : Bool, L.foldl (fun acc x => acc || f x) b = (b || L.any f) := by
  induction L with
  | nil => intro b; simp
  | cons a as ih => intro b; simp [List.foldl_cons, List.any_cons, ih, Bool.or_assoc]

lemma strictHasIssues_eq_any (allKeys : String → Finset (List Char)) :
    strictHasIssues allKeys = languages.any (issueFlag allKeys) := by
  have hstep :
      (fun (acc : Bool) (p : String × String) =>
          if p.1 = "en" then acc
          else
            if (allKeys "en") \ allKeys p.1 = ∅ ∧ allKeys p.1 \ allKeys "en" = ∅ then acc
            else true) =
        fun acc p => acc || issueFlag allKeys p := by
    funext acc p
    by_cases h1 : p.1 = "en"
    · rw [if_pos h1]
      unfold issueFlag
      rw [if_pos h1]
      cases acc <;> rfl
    · by_cases h2 : (allKeys "en") \ allKeys p.1 = ∅ ∧ allKeys p.1 \ allKeys "en" = ∅
      · rw [if_neg h1, if_pos h2]
        unfold issueFlag
        rw [if_neg h1, if_pos h2]
        cases acc <;> rfl
      · rw [if_neg h1, if_neg h2]
        unfold issueFlag
        rw [if_neg h1, if_neg h2]
        cases acc <;> rfl
  unfold strictHasIssues
  rw [hstep, foldl_or_eq]
  simp

lemma issueFlag_true_iff (allKeys : String → Finset (List Char)) (p : String × String) :
    issueFlag allKeys p = true ↔
      p.1 ≠ "en" ∧
        ((allKeys "en") \ allKeys p.1 ≠ ∅ ∨ allKeys p.1 \ allKeys "en" ≠ ∅) := by
  unfold issueFlag
  by_cases h1 : p.1 = "en"
  · rw [if_pos h1]
    constructor
    · intro hf
      exact absurd hf Bool.false_ne_true
    · rintro ⟨hne, -⟩
      exact absurd h1 hne
  · rw [if_neg h1]
    by_cases h2 : (allKeys "en") \ allKeys p.1 = ∅ ∧ allKeys p.1 \ allKeys "en" = ∅
    · rw [if_pos h2]
      constructor
      · intro hf
        exact absurd hf Bool.false_ne_true
      · rintro ⟨-, hne | hne⟩
        · exact absurd h2.1 hne
        · exact absurd h2.2 hne
    · rw [if_neg h2]
      constructor
      · intro _
        exact ⟨h1, not_and_or.mp h2⟩
      · intro _
        rfl

lemma sdiff_union_extras (s t u : Finset (List Char)) : s \ (t ∪ (u \ s)) = s \ t := by
  ext a
  simp only [Finset.mem_sdiff, Finset.mem_union]
  tauto

lemma popN_length (path : List (List Char)) (n : Nat) :
    (popN path n).length = path.length - n := by
  induction n with
  | zero => rfl
  | succ k ih =>
    show (popN path k).dropLast.length = _
    rw [List.length_dropLast, ih]
    omega

lemma keyMatch_head (line : List Char) (k v : List Char) (h : keyMatch line = some (k, v)) :
    ∃ c cs, line.dropWhile isPySpace = c :: cs ∧ isWordChar c = true := by
  simp only [keyMatch] at h
  rcases hr : line.dropWhile isPySpace with _ | ⟨c, cs⟩
  · rw [hr] at h
    simp at h
  · refine ⟨c, cs, rfl, ?_⟩
    rcases hw : isWordChar c with _ | _
    · rw [hr, List.takeWhile_cons, hw] at h
      simp at h
    · rfl

lemma isWordChar_not_pySpace (c : Char) (h : isWordChar c = true) : isPySpace c = false := by
  rcases hsp : isPySpace c with _ | _
  · rfl
  · exfalso
    have hs : c = ' ' ∨ c = '\t' ∨ c = '\n' ∨ c = '\r' ∨ c = '\x0b' ∨ c = '\x0c' := by
      simpa [isPySpace, or_assoc] using hsp
    rcases hs with h1 | h1 | h1 | h1 | h1 | h1 <;> subst h1 <;> exact absurd h (by decide)

lemma isWordChar_ne_slash (c : Char) (h : isWordChar c = true) : c ≠ '/' := by
  intro hc
  subst hc
  exact absurd h (by decide)

lemma pyStrip_head (line : List Char) (c : Char) (cs : List Char)
    (hr : line.dropWhile isPySpace = c :: cs) (hc : isPySpace c = false) :
    ∃ ds, pyStrip line = c :: ds := by
  unfold pyStrip
  rw [hr]
  rw [show (c :: cs).reverse = cs.reverse ++ [c] by simp]
  rw [List.dropWhile_append]
  by_cases he : (cs.reverse.dropWhile isPySpace).isEmpty = true
  · rw [if_pos he, List.dropWhile_cons, hc]
    exact ⟨[], by simp⟩
  · rw [if_neg he, List.reverse_concat]
    exact ⟨(cs.reverse.dropWhile isPySpace).reverse, rfl⟩

/-- C3 counterexample: applying the full extractor to a file whose content is
exactly the five-line scenario-1 snippet does NOT yield
`\x7bgreeting, menu.file, menu.edit\x7d`: the declaration regex finds no
match, so the extractor returns the empty set. -/
theorem scenario1_full_content_counterexample :
    extract_keys_from_ts scenario1Snippet ≠
      ({"greeting".toList, "menu.file".toList, "menu.edit".toList} : Finset (List Char)) := by
  decide

/-- C3 amended: the nested-key extraction pass applied to the scenario-1
snippet — equivalently the full extractor applied to the snippet wrapped in
the `export const ...: TranslationDict = \x7b...\x7d;` declaration — yields
exactly the key set `\x7bgreeting, menu.file, menu.edit\x7d`. -/
theorem scenario1_extraction_amended :
    extract_nested_keys scenario1Snippet =
        ({"greeting".toList, "menu.file".toList, "menu.edit".toList} : Finset (List Char)) ∧
      extract_keys_from_ts scenario1Wrapped =
        ({"greeting".toList, "menu.file".toList, "menu.edit".toList} : Finset (List Char)) := by
  constructor <;> decide

/-- C6: the extractor is total — on content where the declaration regex finds
no match it returns the empty set, and the per-close-brace pop of the nesting
path never fails: popping `n` times truncates the path length by at most `n`,
stopping at the empty path. -/
theorem extractor_total_on_unrecognized (content : List Char) :
    (findDecl content = none → extract_keys_from_ts content = ∅) ∧
    (∀ (path : List (List Char)) (n : Nat), (popN path n).length = path.length - n) := by
  constructor
  · intro h
    unfold extract_keys_from_ts
    rw [h]
  · exact fun path n => popN_length path n

/-- C6 witness: the scenario-1 snippet has no declaration pattern, so the
extractor returns the empty set; popping twice from a one-segment path leaves
the empty path. -/
theorem extractor_total_on_unrecognized_witness :
    extract_keys_from_ts scenario1Snippet = ∅ ∧
      (popN [['a']] 3).length = [['a']].length - 3 :=
  ⟨(extractor_total_on_unrecognized scenario1Snippet).1 (by decide),
    (extractor_total_on_unrecognized scenario1Snippet).2 [['a']] 3⟩

/-- C7: diffing a key set against itself yields empty missing and empty extra
sets, and a run in which every language's key set equals the reference's
exits with status 0 in strict mode. -/
theorem diff_self_empty (S : Finset (List Char)) :
    diffKeys S S = (∅, ∅) ∧ strictExitCode (fun _ => S) = 0 := by
  constructor
  · unfold diffKeys
    rw [Finset.sdiff_self]
  · have hflag : ∀ p : String × String, issueFlag (fun _ => S) p = false := by
      intro p
      unfold issueFlag
      by_cases h1 : p.1 = "en"
      · rw [if_pos h1]
      · rw [if_neg h1, if_pos ⟨Finset.sdiff_self S, Finset.sdiff_self S⟩]
    simp [strictExitCode, strictHasIssues_eq_any, hflag]

/-- C9: the two scripts' key extractors are extensionally equal — the strict
script's extra open-brace count and its unused compiled key pattern have no
effect on the result. -/
theorem strict_detailed_extractors_equal :
    ∀ content : List Char, extract_keys_from_ts_strict content = extract_keys_from_ts content :=
  fun _ => rfl

/-- C1: for every key-set mapping, the exhaustive-mode exit status is 0 iff
the total number of missing keys summed over the four non-reference languages
is zero; enlarging any non-reference language by extra keys (keys outside the
reference set) never changes the exit status. -/
theorem detailed_exit_zero_iff_no_missing (allKeys : String → Finset (List Char)) :
    (detailedExitCode allKeys = 0 ↔ (nonRefCodes.map (missingCount allKeys)).sum = 0) ∧
    (∀ extras : String → Finset (List Char),
      detailedExitCode
          (fun c => if c = "en" then allKeys c else allKeys c ∪ (extras c \ allKeys "en")) =
        detailedExitCode allKeys) := by
  have hexit : ∀ g : String → Finset (List Char),
      detailedExitCode g = if totalMissingKeys g = 0 then 0 else 1 := by
    intro g
    unfold detailedExitCode detailedOutcome
    split <;> rfl
  have hsum : totalMissingKeys allKeys = (nonRefCodes.map (missingCount allKeys)).sum := by
    simp [totalMissingKeys, languages, nonRefCodes, missingCount]
    omega
  constructor
  · rw [hexit allKeys, hsum]
    split_ifs with h
    · exact iff_of_true rfl h
    · exact iff_of_false not_false h
  · intro extras
    have htot :
        totalMissingKeys
            (fun c => if c = "en" then allKeys c else allKeys c ∪ (extras c \ allKeys "en")) =
          totalMissingKeys allKeys := by
      simp [totalMissingKeys, languages, sdiff_union_extras]
    rw [hexit, hexit, htot]

/-- C2: for every key-set mapping, the strict-mode exit status is 1 iff some
non-reference language has a nonempty missing set or a nonempty extra set
relative to the English reference; otherwise the exit status is 0. -/
theorem strict_exit_one_iff_inconsistency (allKeys : String → Finset (List Char)) :
    (strictExitCode allKeys = 1 ↔
      ∃ p ∈ languages, p.1 ≠ "en" ∧
        ((allKeys "en") \ allKeys p.1 ≠ ∅ ∨ allKeys p.1 \ allKeys "en" ≠ ∅)) ∧
    (strictExitCode allKeys = 0 ↔
      ¬∃ p ∈ languages, p.1 ≠ "en" ∧
        ((allKeys "en") \ allKeys p.1 ≠ ∅ ∨ allKeys p.1 \ allKeys "en" ≠ ∅)) := by
  have hkey : strictHasIssues allKeys = true ↔
      ∃ p ∈ languages, p.1 ≠ "en" ∧
        ((allKeys "en") \ allKeys p.1 ≠ ∅ ∨ allKeys p.1 \ allKeys "en" ≠ ∅) := by
    rw [strictHasIssues_eq_any, List.any_eq_true]
    constructor
    · rintro ⟨p, hp, hflag⟩
      exact ⟨p, hp, (issueFlag_true_iff allKeys p).mp hflag⟩
    · rintro ⟨p, hp, hprop⟩
      exact ⟨p, hp, (issueFlag_true_iff allKeys p).mpr hprop⟩
  cases hb : strictHasIssues allKeys with
  | false =>
    have hno : ¬∃ p ∈ languages, p.1 ≠ "en" ∧
        ((allKeys "en") \ allKeys p.1 ≠ ∅ ∨ allKeys p.1 \ allKeys "en" ≠ ∅) := by
      intro hex
      have hh := hkey.mpr hex
      rw [hb] at hh
      exact Bool.false_ne_true hh
    have hz : strictExitCode allKeys = 0 := by
      simp [strictExitCode, hb]
    rw [hz]
    exact ⟨iff_of_false (by omega) hno, iff_of_true rfl hno⟩
  | true =>
    have hyes := hkey.mp hb
    have ho : strictExitCode allKeys = 1 := by
      simp [strictExitCode, hb]
    rw [ho]
    exact ⟨iff_of_true rfl hyes, iff_of_false (by omega) (fun hno => hno hyes)⟩

/-- C8: if the English reference file is absent, or present but extracting to
the empty key set, the exhaustive-mode reference key set is empty, every
language has zero missing keys, the all-consistent success message is
printed, and the exit status is 0. -/
theorem reference_empty_detailed_success (files : String → Option (List Char))
    (h : files "en" = none ∨ buildAllKeys files "en" = ∅) :
    buildAllKeys files "en" = ∅ ∧
      (∀ code : String, buildAllKeys files "en" \ buildAllKeys files code = ∅) ∧
      detailedMain files = (true, 0) := by
  have href : buildAllKeys files "en" = ∅ := by
    rcases h with h | h
    · simp [buildAllKeys, h]
    · exact h
  refine ⟨href, fun code => by rw [href]; exact Finset.empty_sdiff _, ?_⟩
  have htot : totalMissingKeys (buildAllKeys files) = 0 := by
    simp [totalMissingKeys, languages, href]
  unfold detailedMain detailedOutcome
  rw [if_pos htot]

/-- C8 witness: a run in which no translation file exists at all prints the
success message and exits 0. -/
theorem reference_empty_detailed_success_witness :
    buildAllKeys (fun _ => none) "en" = ∅ ∧
      (∀ code : String,
        buildAllKeys (fun _ => none) "en" \ buildAllKeys (fun _ => none) code = ∅) ∧
      detailedMain (fun _ => none) = (true, 0) :=
  reference_empty_detailed_success (fun _ => none) (Or.inl rfl)

/-- C4: a line that matches the key regex with a value part starting with an
open brace (opening a nested object) and containing exactly one close-brace
character leaves the extractor's nesting path unchanged: the push from the
key match is cancelled by the pop from the close-brace count. -/
theorem inline_object_preserves_path (st : List (List Char) × Finset (List Char))
    (line : List Char) (k v : List Char)
    (hm : keyMatch line = some (k, v)) (hv : v.head? = some '\x7b')
    (hc : List.count '\x7d' line = 1) :
    (stepLine st line).1 = st.1 := by
  obtain ⟨c, cs, hr, hw⟩ := keyMatch_head line k v hm
  obtain ⟨ds, hds⟩ := pyStrip_head line c cs hr (isWordChar_not_pySpace c hw)
  have hbeq : (('/' : Char) == c) = false :=
    beq_eq_false_iff_ne.mpr (Ne.symm (isWordChar_ne_slash c hw))
  have hcond : ((pyStrip line).isEmpty
      || List.isPrefixOf "//".toList (pyStrip line)) = false := by
    rw [hds, show "//".toList = ['/', '/'] from rfl]
    simp [List.isPrefixOf, hbeq]
  simp only [stepLine, hcond, Bool.false_eq_true, if_false, hm, hv, hc]
  simp [popN, List.dropLast_concat]

/-- C4 witness: processing the single-line nested block
`key: \x7b a: 1 \x7d` from the path `[menu]` returns to the path `[menu]`. -/
theorem inline_object_preserves_path_witness :
    (stepLine (["menu".toList], ∅) "key: \x7b a: 1 \x7d".toList).1 = ["menu".toList] :=
  inline_object_preserves_path (["menu".toList], ∅) "key: \x7b a: 1 \x7d".toList
    "key".toList "\x7b a: 1 \x7d".toList (by decide) (by decide) (by decide)

lemma stepLine_keys_subset (st : List (List Char) × Finset (List Char)) (line : List Char)
    (key : List Char) (h : key ∈ (stepLine st line).2) :
    key ∈ st.2 ∨ ∃ k v, keyMatch line = some (k, v) ∧ v.head? ≠ some '\x7b' ∧
      key = joinDot (st.1 ++ [k]) := by
  simp only [stepLine] at h
  by_cases hskip : ((pyStrip line).isEmpty
      || List.isPrefixOf "//".toList (pyStrip line)) = true
  · rw [if_pos hskip] at h
    exact Or.inl h
  · rw [if_neg hskip] at h
    rcases hm : keyMatch line with _ | ⟨k, v⟩
    · simp only [hm] at h
      exact Or.inl h
    · simp only [hm] at h
      by_cases hv : v.head? = some '\x7b'
      · rw [if_pos hv] at h
        exact Or.inl h
      · rw [if_neg hv] at h
        rcases Finset.mem_insert.mp h with he | he
        · exact Or.inr ⟨k, v, rfl, hv, he⟩
        · exact Or.inl he

lemma foldl_keys_mem (lines : List (List Char)) :
    ∀ (st : List (List Char) × Finset (List Char)) (key : List Char),
      key ∈ (lines.foldl stepLine st).2 →
      key ∈ st.2 ∨ ∃ line ∈ lines, ∃ path k v, keyMatch line = some (k, v) ∧
        v.head? ≠ some '\x7b' ∧ key = joinDot (path ++ [k]) := by
  induction lines with
  | nil =>
    intro st key h
    exact Or.inl h
  | cons l ls ih =>
    intro st key h
    rw [List.foldl_cons] at h
    rcases ih (stepLine st l) key h with h1 | ⟨line, hline, path, k, v, hkm, hv, hkey⟩
    · rcases stepLine_keys_subset st l key h1 with h2 | ⟨k, v, hkm, hv, hkey⟩
      · exact Or.inl h2
      · exact Or.inr ⟨l, List.mem_cons_self l ls, st.1, k, v, hkm, hv, hkey⟩
    · exact Or.inr ⟨line, List.mem_cons_of_mem l hline, path, k, v, hkm, hv, hkey⟩

/-- C5: leaf-only invariant — every member of the extracted key set comes
from a line matched as a leaf assignment (value part not starting with an
open brace); lines opening nested objects never contribute members. -/
theorem extractor_leaf_only (content : List Char) (key : List Char)
    (h : key ∈ extract_keys_from_ts content) :
    ∃ obj, findDecl content = some obj ∧
      ∃ line ∈ splitOnNl obj, ∃ path k v, keyMatch line = some (k, v) ∧
        v.head? ≠ some '\x7b' ∧ key = joinDot (path ++ [k]) := by
  rcases hd : findDecl content with _ | obj
  · simp only [extract_keys_from_ts, hd] at h
    exact absurd h (Finset.not_mem_empty key)
  · simp only [extract_keys_from_ts, hd] at h
    refine ⟨obj, rfl, ?_⟩
    unfold extract_nested_keys at h
    rcases foldl_keys_mem (splitOnNl obj) ([], ∅) key h with
      h1 | ⟨line, hline, path, k, v, hkm, hv, hkey⟩
    · exact absurd h1 (Finset.not_mem_empty key)
    · exact ⟨line, hline, path, k, v, hkm, hv, hkey⟩

/-- C5 witness: the key `menu.file` extracted from the wrapped scenario-1
content comes from a leaf-assignment line. -/
theorem extractor_leaf_only_witness :
    ∃ obj, findDecl scenario1Wrapped = some obj ∧
      ∃ line ∈ splitOnNl obj, ∃ path k v, keyMatch line = some (k, v) ∧
        v.head? ≠ some '\x7b' ∧ "menu.file".toList = joinDot (path ++ [k]) :=
  extractor_leaf_only scenario1Wrapped "menu.file".toList (by decide)

/-- C10: every printed key listing is in ascending lexicographic order — the
exhaustive script enumerates the sorted missing set with indices 1..n, the
strict script shows the first 20 of the sorted missing and sorted extra sets,
and any key cut off by the 20-item truncation is lexicographically greater
than every key shown. -/
theorem listings_sorted (ref lang : Finset (List Char)) :
    List.Sorted (fun a b : List Char => a < b)
        ((detailedMissingListing ref lang).map Prod.snd) ∧
    (detailedMissingListing ref lang).map Prod.fst = List.range' 1 (ref \ lang).card ∧
    List.Sorted (fun a b : List Char => a < b) (strictShownMissing ref lang) ∧
    List.Sorted (fun a b : List Char => a < b) (strictShownExtra ref lang) ∧
    (∀ a ∈ strictShownMissing ref lang, ∀ b ∈ ref \ lang,
      b ∉ strictShownMissing ref lang → a < b) ∧
    (∀ a ∈ strictShownExtra ref lang, ∀ b ∈ lang \ ref,
      b ∉ strictShownExtra ref lang → a < b) := by
  refine ⟨?_, ?_, ?_, ?_, ?_, ?_⟩
  · unfold detailedMissingListing
    rw [List.enumFrom_map_snd]
    exact sortKeys_sorted_lt _
  · unfold detailedMissingListing
    rw [List.enumFrom_map_fst, length_sortKeys]
  · exact List.Pairwise.sublist (List.take_sublist 20 _) (sortKeys_sorted_lt _)
  · exact List.Pairwise.sublist (List.take_sublist 20 _) (sortKeys_sorted_lt _)
  · intro a ha b hb hnb
    exact take_lt_of_sorted_lt (sortKeys (ref \ lang)) 20 (sortKeys_sorted_lt _) a b ha
      (mem_sortKeys.mpr hb) hnb
  · intro a ha b hb hnb
    exact take_lt_of_sorted_lt (sortKeys (lang \ ref)) 20 (sortKeys_sorted_lt _) a b ha
      (mem_sortKeys.mpr hb) hnb

/-- C10 witness: with 21 missing and 21 extra keys, the shown key `m01`
(resp. `x01`) precedes the truncated 21st key `m21` (resp. `x21`). -/
theorem listings_sorted_witness :
    "m01".toList < "m21".toList ∧ "x01".toList < "x21".toList :=
  ⟨(listings_sorted sampleRef sampleLang).2.2.2.2.1 "m01".toList (by decide)
      "m21".toList (by decide) (by decide),
    (listings_sorted sampleRef sampleLang).2.2.2.2.2 "x01".toList (by decide)
      "x21".toList (by decide) (by decide)⟩
